import Mathlib

/-!
Shallow embedding of the `enum_builder` procedural macro crate
(`src/lib.rs`) and verification of its specification.

Modelling conventions:
* Rendered token text (`to_token_stream().to_string()`) is modelled as
  `String`.  Filesystem paths are `String`s with `/` as separator.
* `syn::Meta` is `Meta`; `syn::MetaNameValue` (the macro's own arguments)
  is `MetaNameValue` carrying the rendered path and the rendered value
  token stream (a string literal keeps its surrounding quote characters,
  exactly as `to_token_stream().to_string()` produces).
* A `syn::Item` is `Item`: the four supported shapes carry their
  attributes, identifier and rendered generics; every item additionally
  carries `src`, its own full token rendering (visibility, body, ...),
  used only when the macro returns an item unchanged.  `Item.other`
  stands for every other item kind (fn, trait, const, use, mod, ...),
  with a `kind` tag for readability.
* The directory walk (`WalkDir::new(dir)`) is a function
  `walk : String → List WEntry` supplied by the environment: `walk dir`
  is the ordered list of entries produced when walking `dir`.  An
  `Err(_)` entry of the iterator is `WEntry.err` (a nonexistent root
  yields exactly one such entry); reading and parsing a file is folded
  into `FileContent` (`unreadable` / `unparsable` / `parsed items`).
* The `expect` panics of the macro abort compilation; the embedding
  returns `Except String String`, the error being the panic message.
-/

namespace EnumBuilder

/-- Rendered form of a `syn::Meta`: a bare path, a list
`path(tokens)`, or a name-value pair, each component given by its
token-stream rendering. -/
inductive Meta where
  | path (p : String)
  | list (path : String) (tokens : String)
  | nameValue (path : String) (value : String)
  deriving DecidableEq, Repr

/-- The data the macro reads off a supported item: its attributes, its
identifier, the rendering of its generic parameter list
(`generics.to_token_stream().to_string()`), and `src`, the item's own
full token rendering (covering visibility, body and everything else,
used only for returning the item unchanged). -/
structure ItemData where
  attrs : List Meta
  ident : String
  generics : String
  src : String
  deriving DecidableEq, Repr

/-- A top-level `syn::Item`.  The four shapes matched by the macro
(`Struct`, `Type`, `Enum`, `Union`) carry their `ItemData`; an `Enum`
additionally carries its list of declared variants (rendered), so that
emptiness of an enumeration is representable.  Every other item kind is
`other`, with its attributes, a `kind` tag and its rendering. -/
inductive Item where
  | struct_ (d : ItemData)
  | typeAlias (d : ItemData)
  | enum_ (d : ItemData) (variants : List String)
  | union_ (d : ItemData)
  | other (kind : String) (attrs : List Meta) (src : String)
  deriving DecidableEq, Repr

/-- The full token rendering of an item (`to_token_stream`). -/
def Item.src : Item → String
  | .struct_ d => d.src
  | .typeAlias d => d.src
  | .enum_ d _ => d.src
  | .union_ d => d.src
  | .other _ _ s => s

/-- `valid_variant` from `src/lib.rs`: scan the attributes in order; an
attribute whose meta is a list, whose path renders to the literal text
`enum_builder_variant` and whose argument tokens render to the enum
name, makes the item a valid variant.  Any other attribute is skipped. -/
def valid_variant (enum_name : String) : List Meta → Bool
  | [] => false
  | .list path tokens :: rest =>
      if path ≠ "enum_builder_variant" then valid_variant enum_name rest
      else if tokens = enum_name then true
      else valid_variant enum_name rest
  | .path _ :: rest => valid_variant enum_name rest
  | .nameValue _ _ :: rest => valid_variant enum_name rest

/-- The variant text pushed for a qualifying item:
`format!("{}({}{})", ident, ident, generics)`. -/
def variantText (d : ItemData) : String :=
  d.ident ++ "(" ++ d.ident ++ d.generics ++ ")"

/-- The `(attrs, ident, generics)` data of an item of one of the four
supported shapes; `none` for every other item kind. -/
def supportedData : Item → Option ItemData
  | .struct_ d => some d
  | .typeAlias d => some d
  | .enum_ d _ => some d
  | .union_ d => some d
  | .other _ _ _ => none

/-- One iteration of the inner item loop of the macro: a supported item
that `valid_variant` accepts contributes its variant text; everything
else contributes nothing (`_ => continue`). -/
def itemVariant (enum_name : String) : Item → Option String
  | .struct_ d =>
      if valid_variant enum_name d.attrs then some (variantText d) else none
  | .typeAlias d =>
      if valid_variant enum_name d.attrs then some (variantText d) else none
  | .enum_ d _ =>
      if valid_variant enum_name d.attrs then some (variantText d) else none
  | .union_ d =>
      if valid_variant enum_name d.attrs then some (variantText d) else none
  | .other _ _ _ => none

/-- Outcome of visiting one file during the walk: `fs::read_to_string`
fails (`unreadable`), `syn::parse_file` fails (`unparsable`), or the
file parses to its list of top-level items. -/
inductive FileContent where
  | unreadable
  | unparsable
  | parsed (items : List Item)
  deriving DecidableEq, Repr

/-- One entry yielded by the `WalkDir` iterator: an `Err(_)` result
(skipped by the macro), a directory, or a file with its content. -/
inductive WEntry where
  | err
  | dirEntry (path : String)
  | fileEntry (path : String) (content : FileContent)
  deriving DecidableEq, Repr

/-- The path-separator character, `'/'`. -/
def slashChar : Char := Char.ofNat 47

/-- The dot character, `'.'`. -/
def dotChar : Char := Char.ofNat 46

/-- Split a character list at every occurrence of a separator character
(the list of separated chunks; a separator at an end yields an empty
chunk, as Rust's `split` does). -/
def splitChar (c : Char) : List Char → List (List Char)
  | [] => [[]]
  | x :: xs =>
      match splitChar c xs with
      | [] => if x = c then [[], []] else [[x]]
      | y :: ys => if x = c then [] :: y :: ys else (x :: y) :: ys

/-- The components of a `/`-separated path string. -/
def pathComponents (p : String) : List String :=
  (splitChar slashChar p.toList).map String.mk

/-- Whether a path string is absolute, i.e. begins with `/`. -/
def startsWithSlash (s : String) : Bool :=
  match s.toList with
  | [] => false
  | c :: _ => c = slashChar

/-- Whether a path string ends with the separator `/`. -/
def endsWithSlash (s : String) : Bool :=
  match s.toList.getLast? with
  | none => false
  | some c => c = slashChar

/-- `Path::extension` of Rust for a `/`-separated path string: the part
of the file name after the final dot; `none` when the file name has no
embedded dot or consists of a single leading dot plus one suffix. -/
def fileExtension (p : String) : Option String :=
  let name := (pathComponents p).getLastD ""
  match (splitChar dotChar name.toList).map String.mk with
  | [] => none
  | [_] => none
  | first :: rest =>
      if first == "" && rest.length == 1 then none
      else some (rest.getLastD "")

/-- A walk entry that the macro will actually read: a file whose
extension is `rs`. -/
def isCandidateFile : WEntry → Bool
  | .fileEntry p _ => fileExtension p == some "rs"
  | _ => false

/-- The walk loop of `enum_builder` (lines 126-185 of `src/lib.rs`):
skip walk errors, directories and files without the `rs` extension;
abort with the corresponding `expect` message on the first unreadable or
unparsable file; otherwise collect, in order, the variant text of every
qualifying item of every visited file. -/
def collectVariants (enum_name : String) : List WEntry → Except String (List String)
  | [] => .ok []
  | .err :: rest => collectVariants enum_name rest
  | .dirEntry _ :: rest => collectVariants enum_name rest
  | .fileEntry p c :: rest =>
      if fileExtension p ≠ some "rs" then collectVariants enum_name rest
      else
        match c with
        | .unreadable => .error ("unable to read file " ++ p)
        | .unparsable => .error ("unable to parse file " ++ p)
        | .parsed items =>
            match collectVariants enum_name rest with
            | .error e => .error e
            | .ok vs => .ok (items.filterMap (itemVariant enum_name) ++ vs)

/-- The quotation-mark character, `'"'`. -/
def quoteChar : Char := Char.ofNat 34

/-- Rust `str::trim_matches('"')`: remove every leading and trailing
quotation mark. -/
def trimQuotes (s : String) : String :=
  String.mk (((s.toList.dropWhile fun c => c = quoteChar).reverse.dropWhile
    fun c => c = quoteChar).reverse)

/-- Rust `Path::join` for `/`-separated path strings: an absolute
argument replaces the base path entirely; otherwise the argument is
appended with a separator. -/
def pathJoin (base child : String) : String :=
  if startsWithSlash child then child
  else if base = "" then child
  else if endsWithSlash base then base ++ child
  else base ++ "/" ++ child

/-- Rust `Path::parent` for a `/`-separated path string: drop the last
component. -/
def parentDir (p : String) : String :=
  String.intercalate "/" (pathComponents p).dropLast

/-- A parsed `syn::MetaNameValue` macro argument: rendered path and
rendered value token stream (for a string literal the rendering keeps
the surrounding quotation marks). -/
structure MetaNameValue where
  path : String
  value : String
  deriving DecidableEq, Repr

/-- The argument loop of `enum_builder` (lines 104-118 of
`src/lib.rs`): arguments whose name is not `path` are skipped; each
`path` argument joins its quote-trimmed value onto the current
directory. -/
def resolveDir (base : String) (attrs : List MetaNameValue) : String :=
  attrs.foldl
    (fun dir attr =>
      if attr.path ≠ "path" then dir
      else pathJoin dir (trimQuotes attr.value))
    base

/-- One invocation of the `enum_builder` attribute macro:
`Span::call_site().local_file()`, the parsed macro arguments, and the
parsed annotated item. -/
structure Invocation where
  localFile : Option String
  attrs : List MetaNameValue
  item : Item
  deriving DecidableEq, Repr

/-- The output string built at lines 187-192 of `src/lib.rs`:
`#[enum_dispatch]\nenum {enum_name}<'a> { {variants joined by ",\n"} }`. -/
def renderEnum (enum_name : String) (variants : List String) : String :=
  "#[enum_dispatch]\nenum " ++ enum_name ++ "<\x27a> \x7b "
    ++ String.intercalate ",\n" variants ++ " \x7d"

/-- The `enum_builder` procedural macro (lines 94-193 of `src/lib.rs`),
with the walk supplied by the environment: with no call-site file the
item is returned unchanged; otherwise the scan directory is resolved
from the invoking file's parent and the `path` arguments; a non-`Enum`
item is returned unchanged; for an `Enum` item the walk is scanned and
the synthesized enumeration string is produced, or the scan's fatal
error is propagated. -/
def enum_builder (walk : String → List WEntry) (inv : Invocation) :
    Except String String :=
  match inv.localFile with
  | none => .ok inv.item.src
  | some file =>
      let dir := resolveDir (parentDir file) inv.attrs
      match inv.item with
      | .enum_ d _ =>
          match collectVariants d.ident (walk dir) with
          | .error e => .error e
          | .ok vs => .ok (renderEnum d.ident vs)
      | it => .ok it.src

/-- The items of all visited, successfully parsed candidate files of a
walk, in walk order. -/
def visitedItems : List WEntry → List Item
  | [] => []
  | .fileEntry p (.parsed items) :: rest =>
      if fileExtension p ≠ some "rs" then visitedItems rest
      else items ++ visitedItems rest
  | _ :: rest => visitedItems rest

/-- A successful scan collects exactly the variant texts of the visited
items, in walk order. -/
lemma collectVariants_ok (n : String) (es : List WEntry) (vs : List String)
    (h : collectVariants n es = .ok vs) :
    vs = (visitedItems es).filterMap (itemVariant n) := by
  induction es generalizing vs with
  | nil =>
      simp only [collectVariants, Except.ok.injEq] at h
      simp [visitedItems, ← h]
  | cons e rest ih =>
      cases e with
      | err =>
          simp only [collectVariants] at h
          simpa [visitedItems] using ih vs h
      | dirEntry p =>
          simp only [collectVariants] at h
          simpa [visitedItems] using ih vs h
      | fileEntry p c =>
          by_cases hp : fileExtension p = some "rs"
          · simp only [collectVariants, hp, not_true_eq_false, ne_eq,
              not_false_eq_true, if_neg] at h
            cases c with
            | unreadable => cases h
            | unparsable => cases h
            | parsed items =>
                cases hr : collectVariants n rest with
                | error e => rw [hr] at h; cases h
                | ok ws =>
                    rw [hr] at h
                    simp only [Except.ok.injEq] at h
                    simp [visitedItems, hp, List.filterMap_append, ← h,
                      ih ws hr]
          · simp only [collectVariants, ne_eq, hp, not_false_eq_true,
              if_pos] at h
            cases c with
            | unreadable => simpa [visitedItems, hp] using ih vs h
            | unparsable => simpa [visitedItems, hp] using ih vs h
            | parsed items => simpa [visitedItems, hp] using ih vs h

/-- Items of a visited parsed candidate file are visited items. -/
lemma mem_visitedItems (es : List WEntry) (p : String) (items : List Item)
    (it : Item) (hmem : WEntry.fileEntry p (.parsed items) ∈ es)
    (hext : fileExtension p = some "rs") (hit : it ∈ items) :
    it ∈ visitedItems es := by
  induction es with
  | nil => cases hmem
  | cons e rest ih =>
      rcases List.mem_cons.mp hmem with he | he
      · subst he
        simp [visitedItems, hext, hit]
      · cases e with
        | err => simpa [visitedItems] using ih he
        | dirEntry q => simpa [visitedItems] using ih he
        | fileEntry q c =>
            cases c with
            | unreadable => simpa [visitedItems] using ih he
            | unparsable => simpa [visitedItems] using ih he
            | parsed its =>
                by_cases hq : fileExtension q = some "rs"
                · simp only [visitedItems, ne_eq, hq, not_true_eq_false,
                    if_neg, List.mem_append, not_false_eq_true]
                  exact Or.inr (ih he)
                · simpa [visitedItems, hq] using ih he

/-- Conversely, every visited item comes from a visited parsed candidate
file. -/
lemma visitedItems_mem_inv (es : List WEntry) (it : Item)
    (h : it ∈ visitedItems es) :
    ∃ p items, WEntry.fileEntry p (.parsed items) ∈ es ∧
      fileExtension p = some "rs" ∧ it ∈ items := by
  induction es with
  | nil => cases h
  | cons e rest ih =>
      cases e with
      | err =>
          obtain ⟨p, items, hm, hx, hi⟩ := ih (by simpa [visitedItems] using h)
          exact ⟨p, items, List.mem_cons_of_mem _ hm, hx, hi⟩
      | dirEntry q =>
          obtain ⟨p, items, hm, hx, hi⟩ := ih (by simpa [visitedItems] using h)
          exact ⟨p, items, List.mem_cons_of_mem _ hm, hx, hi⟩
      | fileEntry q c =>
          cases c with
          | unreadable =>
              obtain ⟨p, items, hm, hx, hi⟩ :=
                ih (by simpa [visitedItems] using h)
              exact ⟨p, items, List.mem_cons_of_mem _ hm, hx, hi⟩
          | unparsable =>
              obtain ⟨p, items, hm, hx, hi⟩ :=
                ih (by simpa [visitedItems] using h)
              exact ⟨p, items, List.mem_cons_of_mem _ hm, hx, hi⟩
          | parsed its =>
              by_cases hq : fileExtension q = some "rs"
              · rw [visitedItems, if_neg (by simpa using hq)] at h
                rcases List.mem_append.mp h with hin | hin
                · exact ⟨q, its, List.mem_cons_self _ _, hq, hin⟩
                · obtain ⟨p, items, hm, hx, hi⟩ := ih hin
                  exact ⟨p, items, List.mem_cons_of_mem _ hm, hx, hi⟩
              · obtain ⟨p, items, hm, hx, hi⟩ :=
                  ih (by simpa [visitedItems, hq] using h)
                exact ⟨p, items, List.mem_cons_of_mem _ hm, hx, hi⟩

/-- `itemVariant` on an item of supported shape. -/
lemma itemVariant_of_supported (n : String) (it : Item) (cd : ItemData)
    (h : supportedData it = some cd) :
    itemVariant n it =
      if valid_variant n cd.attrs then some (variantText cd) else none := by
  cases it with
  | struct_ d => simp only [supportedData, Option.some.injEq] at h; subst h; rfl
  | typeAlias d => simp only [supportedData, Option.some.injEq] at h; subst h; rfl
  | enum_ d vs => simp only [supportedData, Option.some.injEq] at h; subst h; rfl
  | union_ d => simp only [supportedData, Option.some.injEq] at h; subst h; rfl
  | other k a s => cases h

/-- Conversely, an item contributing a variant is of supported shape and
carries a matching marker. -/
lemma itemVariant_some_inv (n : String) (it : Item) (v : String)
    (h : itemVariant n it = some v) :
    ∃ cd, supportedData it = some cd ∧ valid_variant n cd.attrs = true ∧
      v = variantText cd := by
  cases it with
  | struct_ d =>
      by_cases hv : valid_variant n d.attrs
      · refine ⟨d, rfl, hv, ?_⟩
        simp only [itemVariant, hv, if_pos, Option.some.injEq] at h
        exact h.symm
      · simp [itemVariant, hv] at h
  | typeAlias d =>
      by_cases hv : valid_variant n d.attrs
      · refine ⟨d, rfl, hv, ?_⟩
        simp only [itemVariant, hv, if_pos, Option.some.injEq] at h
        exact h.symm
      · simp [itemVariant, hv] at h
  | enum_ d vs =>
      by_cases hv : valid_variant n d.attrs
      · refine ⟨d, rfl, hv, ?_⟩
        simp only [itemVariant, hv, if_pos, Option.some.injEq] at h
        exact h.symm
      · simp [itemVariant, hv] at h
  | union_ d =>
      by_cases hv : valid_variant n d.attrs
      · refine ⟨d, rfl, hv, ?_⟩
        simp only [itemVariant, hv, if_pos, Option.some.injEq] at h
        exact h.symm
      · simp [itemVariant, hv] at h
  | other k a s => cases h

/-- If some candidate file of the walk is unreadable or unparsable, the
scan aborts with the corresponding `expect` message for some such
file. -/
lemma collectVariants_error_of_bad (n : String) (es : List WEntry)
    (p : String) (c : FileContent)
    (hmem : WEntry.fileEntry p c ∈ es)
    (hext : fileExtension p = some "rs")
    (hbad : c = .unreadable ∨ c = .unparsable) :
    ∃ q, fileExtension q = some "rs" ∧
      ((collectVariants n es = .error ("unable to read file " ++ q) ∧
          WEntry.fileEntry q .unreadable ∈ es) ∨
        (collectVariants n es = .error ("unable to parse file " ++ q) ∧
          WEntry.fileEntry q .unparsable ∈ es)) := by
  induction es with
  | nil => cases hmem
  | cons e rest ih =>
      rcases List.mem_cons.mp hmem with he | he
      · subst he
        rcases hbad with hb | hb
        · subst hb
          exact ⟨p, hext, Or.inl ⟨by simp [collectVariants, hext],
            List.mem_cons_self _ _⟩⟩
        · subst hb
          exact ⟨p, hext, Or.inr ⟨by simp [collectVariants, hext],
            List.mem_cons_self _ _⟩⟩
      · obtain ⟨q, hq, hcase⟩ := ih he
        cases e with
        | err =>
            refine ⟨q, hq, ?_⟩
            rcases hcase with ⟨heq, hm⟩ | ⟨heq, hm⟩
            · exact Or.inl ⟨by simpa [collectVariants] using heq,
                List.mem_cons_of_mem _ hm⟩
            · exact Or.inr ⟨by simpa [collectVariants] using heq,
                List.mem_cons_of_mem _ hm⟩
        | dirEntry r =>
            refine ⟨q, hq, ?_⟩
            rcases hcase with ⟨heq, hm⟩ | ⟨heq, hm⟩
            · exact Or.inl ⟨by simpa [collectVariants] using heq,
                List.mem_cons_of_mem _ hm⟩
            · exact Or.inr ⟨by simpa [collectVariants] using heq,
                List.mem_cons_of_mem _ hm⟩
        | fileEntry r cr =>
            by_cases hr : fileExtension r = some "rs"
            · cases cr with
              | unreadable =>
                  exact ⟨r, hr, Or.inl ⟨by simp [collectVariants, hr],
                    List.mem_cons_self _ _⟩⟩
              | unparsable =>
                  exact ⟨r, hr, Or.inr ⟨by simp [collectVariants, hr],
                    List.mem_cons_self _ _⟩⟩
              | parsed its =>
                  refine ⟨q, hq, ?_⟩
                  rcases hcase with ⟨heq, hm⟩ | ⟨heq, hm⟩
                  · refine Or.inl ⟨?_, List.mem_cons_of_mem _ hm⟩
                    simp [collectVariants, hr, heq]
                  · refine Or.inr ⟨?_, List.mem_cons_of_mem _ hm⟩
                    simp [collectVariants, hr, heq]
            · refine ⟨q, hq, ?_⟩
              rcases hcase with ⟨heq, hm⟩ | ⟨heq, hm⟩
              · exact Or.inl ⟨by simpa [collectVariants, hr] using heq,
                  List.mem_cons_of_mem _ hm⟩
              · exact Or.inr ⟨by simpa [collectVariants, hr] using heq,
                  List.mem_cons_of_mem _ hm⟩

/-- A walk with no candidate file scans successfully to an empty variant
list. -/
lemma collectVariants_ok_nil (n : String) (es : List WEntry)
    (h : ∀ e ∈ es, isCandidateFile e = false) :
    collectVariants n es = .ok [] := by
  induction es with
  | nil => rfl
  | cons e rest ih =>
      have hrest := ih fun e' he' => h e' (List.mem_cons_of_mem _ he')
      cases e with
      | err => simpa [collectVariants] using hrest
      | dirEntry p => simpa [collectVariants] using hrest
      | fileEntry p c =>
          have hp : ¬ fileExtension p = some "rs" := by
            have := h _ (List.mem_cons_self _ _)
            simpa [isCandidateFile] using this
          simpa [collectVariants, hp] using hrest

/-- `visitedItems` distributes over walk concatenation. -/
lemma visitedItems_append (es es' : List WEntry) :
    visitedItems (es ++ es') = visitedItems es ++ visitedItems es' := by
  induction es with
  | nil => simp [visitedItems]
  | cons e rest ih =>
      cases e with
      | err => simpa [visitedItems] using ih
      | dirEntry p => simpa [visitedItems] using ih
      | fileEntry p c =>
          cases c with
          | unreadable => simpa [visitedItems] using ih
          | unparsable => simpa [visitedItems] using ih
          | parsed its =>
              by_cases hp : fileExtension p = some "rs"
              · simp [visitedItems, hp, ih, List.append_assoc]
              · simp [visitedItems, hp, ih]

/-- Arguments whose name is not `path` do not change the resolved
directory. -/
lemma resolveDir_filter (base : String) (attrs : List MetaNameValue) :
    resolveDir base (attrs.filter fun a => a.path == "path") =
      resolveDir base attrs := by
  induction attrs generalizing base with
  | nil => rfl
  | cons a rest ih =>
      by_cases h : a.path = "path"
      · have hb : (a.path == "path") = true := by simpa using h
        simp only [List.filter_cons, hb, if_true, resolveDir,
          List.foldl_cons]
        exact ih _
      · have hb : (a.path == "path") = false := by simpa using h
        simp only [List.filter_cons, hb, Bool.false_eq_true, if_false,
          resolveDir, List.foldl_cons, ne_eq, h, not_false_eq_true,
          if_true]
        exact ih base

/-- Appending one `path` argument joins its quote-trimmed value onto the
directory resolved so far. -/
lemma resolveDir_append_path (base v : String) (attrs : List MetaNameValue) :
    resolveDir base (attrs ++ [⟨"path", v⟩]) =
      pathJoin (resolveDir base attrs) (trimQuotes v) := by
  simp [resolveDir, List.foldl_append]

/-- A one-file walk containing a `Dog` struct marked for `Animal`, used
for concrete instantiations. -/
def exampleWalk : String → List WEntry := fun _ =>
  [WEntry.fileEntry "/r/a.rs" (.parsed
    [.struct_ ⟨[Meta.list "enum_builder_variant" "Animal"], "Dog", "",
      "struct Dog \x7b\x7d"⟩])]

/-- An invocation on an empty `Animal` enumeration in `/r/main.rs`, used
for concrete instantiations. -/
def exampleInv : Invocation :=
  ⟨some "/r/main.rs", [], .enum_ ⟨[], "Animal", "", "enum Animal \x7b\x7d"⟩ []⟩

/-- C6: the marker recognizer returns true if and only if some attribute
is a named list whose path renders to the literal text
`enum_builder_variant` and whose argument tokens render to the group
identifier's text; it is a pure total boolean function, so it has no
side effects and no error outcome, and the first match decides. -/
theorem c6_marker_recognizer (enum_name : String) (attrs : List Meta) :
    valid_variant enum_name attrs = true ↔
      Meta.list "enum_builder_variant" enum_name ∈ attrs := by
  induction attrs with
  | nil => simp [valid_variant]
  | cons a rest ih =>
      cases a with
      | path p => simp [valid_variant, ih]
      | nameValue p v => simp [valid_variant, ih]
      | list p t =>
          by_cases hp : p = "enum_builder_variant"
          · subst hp
            by_cases ht : t = enum_name
            · subst ht; simp [valid_variant]
            · simp [valid_variant, ht, ih, Ne.symm ht]
          · simp [valid_variant, hp, ih, Ne.symm hp]

/-- C4 counterexample: a non-empty enumeration target (here `Animal`
with declared variant `Existing`) is not returned unchanged: the macro
accepts any `Enum` item and replaces it with the synthesized
enumeration, discarding the original body. -/
theorem c4_counterexample :
    enum_builder (fun _ => [])
      ⟨some "/proj/main.rs", [],
        .enum_ ⟨[], "Animal", "", "enum Animal \x7b Existing \x7d"⟩
          ["Existing"]⟩ =
      .ok (renderEnum "Animal" []) ∧
    renderEnum "Animal" [] ≠ "enum Animal \x7b Existing \x7d" := by
  exact ⟨rfl, by decide⟩

/-- C4 amended: only when the annotated declaration is not an
enumeration at all does the builder perform no transformation and
return the original declaration unchanged, with no diagnostic; an
enumeration target is always transformed, whether empty or not. -/
theorem c4_non_enum_noop (walk : String → List WEntry) (inv : Invocation)
    (h : ∀ d variants, inv.item ≠ Item.enum_ d variants) :
    enum_builder walk inv = .ok inv.item.src := by
  cases hf : inv.localFile with
  | none => simp [enum_builder, hf]
  | some file =>
      cases hi : inv.item with
      | struct_ d => simp [enum_builder, hf, hi, Item.src]
      | typeAlias d => simp [enum_builder, hf, hi, Item.src]
      | enum_ d vs => exact absurd hi (h d vs)
      | union_ d => simp [enum_builder, hf, hi, Item.src]
      | other k a s => simp [enum_builder, hf, hi, Item.src]

/-- C4 witness: a struct target is returned unchanged. -/
theorem c4_non_enum_noop_witness :
    enum_builder (fun _ => [])
      ⟨some "/proj/main.rs", [], .struct_ ⟨[], "Foo", "", "struct Foo ;"⟩⟩ =
      .ok "struct Foo ;" :=
  c4_non_enum_noop _ _ (fun _ _ h => Item.noConfusion h)

/-- C5 counterexample: with invoking directory `/proj/src` and argument
`path = "/override"`, the resolved scan root is `/override`: the
absolute override string replaces the default directory instead of
being appended to it as a relative suffix. -/
theorem c5_counterexample :
    resolveDir "/proj/src" [⟨"path", "\x22/override\x22"⟩] = "/override" ∧
    ¬ ∃ suffix : String,
      resolveDir "/proj/src" [⟨"path", "\x22/override\x22"⟩] =
        "/proj/src" ++ suffix := by
  refine ⟨rfl, ?_⟩
  rintro ⟨s, hs⟩
  rw [show resolveDir "/proj/src" [⟨"path", "\x22/override\x22"⟩] =
    "/override" from rfl] at hs
  have hl := congrArg String.length hs
  rw [String.length_append] at hl
  rw [show ("/override" : String).length = 9 from rfl,
    show ("/proj/src" : String).length = 9 from rfl] at hl
  have hz : s.length = 0 := by omega
  have hse : s = "" := by
    cases s with
    | mk data =>
        cases data with
        | nil => rfl
        | cons c cs => simp [String.length] at hz
  subst hse
  exact absurd hs (by decide)

/-- C5 amended: every `path = "<string>"` argument is combined with the
directory resolved so far using path-join semantics — appended with a
separator when the quote-trimmed override string is relative, but
replacing the directory entirely when it is absolute — and every
name-value argument whose name is not `path` is silently ignored. -/
theorem c5_path_resolution (base v : String) (attrs : List MetaNameValue) :
    resolveDir base (attrs.filter fun a => a.path == "path") =
      resolveDir base attrs ∧
    resolveDir base (attrs ++ [⟨"path", v⟩]) =
      pathJoin (resolveDir base attrs) (trimQuotes v) ∧
    pathJoin (resolveDir base attrs) (trimQuotes v) =
      (if startsWithSlash (trimQuotes v) then trimQuotes v
       else if resolveDir base attrs = "" then trimQuotes v
       else if endsWithSlash (resolveDir base attrs) then
         resolveDir base attrs ++ trimQuotes v
       else resolveDir base attrs ++ "/" ++ trimQuotes v) :=
  ⟨resolveDir_filter base attrs, resolveDir_append_path base v attrs, rfl⟩

/-- C1: discovery completeness — for every item of supported shape in a
visited, parsed candidate file of the walk that carries a marker whose
argument equals the group name, the successful invocation's variant
list contains the variant `Name(Name<Generics>)` built from the item's
name and verbatim generics, and the emitted declaration renders exactly
that list. -/
theorem c1_discovery_completeness (walk : String → List WEntry)
    (inv : Invocation) (d : ItemData) (evariants : List String)
    (file dir p : String) (items : List Item) (it : Item) (cd : ItemData)
    (vs : List String)
    (hitem : inv.item = .enum_ d evariants)
    (hfile : inv.localFile = some file)
    (hdir : dir = resolveDir (parentDir file) inv.attrs)
    (hok : collectVariants d.ident (walk dir) = .ok vs)
    (hentry : WEntry.fileEntry p (.parsed items) ∈ walk dir)
    (hext : fileExtension p = some "rs")
    (hit : it ∈ items)
    (hshape : supportedData it = some cd)
    (hmark : valid_variant d.ident cd.attrs = true) :
    variantText cd ∈ vs ∧
      enum_builder walk inv = .ok (renderEnum d.ident vs) := by
  constructor
  · rw [collectVariants_ok _ _ _ hok]
    refine List.mem_filterMap.mpr
      ⟨it, mem_visitedItems _ _ _ _ hentry hext hit, ?_⟩
    rw [itemVariant_of_supported _ _ _ hshape, if_pos hmark]
  · simp [enum_builder, hfile, hitem, ← hdir, hok]

/-- C1 witness: the marked `Dog` struct of the example walk yields the
variant `Dog(Dog)` in the synthesized `Animal` enumeration. -/
theorem c1_witness :
    variantText ⟨[Meta.list "enum_builder_variant" "Animal"], "Dog", "",
        "struct Dog \x7b\x7d"⟩ ∈ ["Dog(Dog)"] ∧
      enum_builder exampleWalk exampleInv =
        .ok (renderEnum "Animal" ["Dog(Dog)"]) :=
  c1_discovery_completeness exampleWalk exampleInv _ _ "/r/main.rs"
    (resolveDir (parentDir "/r/main.rs") exampleInv.attrs) "/r/a.rs" _ _ _ _
    rfl rfl rfl rfl (List.mem_singleton.mpr rfl) rfl
    (List.mem_singleton.mpr rfl) rfl rfl

/-- C2: discovery soundness — every variant of a successful scan comes
from an item of one of the four supported shapes, carrying a matching
marker, inside a parsed file with the `rs` extension that the walk of
the scan root visited; nothing else ever contributes a variant. -/
theorem c2_discovery_soundness (walk : String → List WEntry)
    (inv : Invocation) (d : ItemData) (evariants : List String)
    (file dir : String) (vs : List String) (v : String)
    (hitem : inv.item = .enum_ d evariants)
    (hfile : inv.localFile = some file)
    (hdir : dir = resolveDir (parentDir file) inv.attrs)
    (hok : collectVariants d.ident (walk dir) = .ok vs)
    (hv : v ∈ vs) :
    ∃ p items it cd,
      WEntry.fileEntry p (.parsed items) ∈ walk dir ∧
        fileExtension p = some "rs" ∧ it ∈ items ∧
        supportedData it = some cd ∧
        valid_variant d.ident cd.attrs = true ∧ v = variantText cd := by
  rw [collectVariants_ok _ _ _ hok] at hv
  obtain ⟨it, hin, hsome⟩ := List.mem_filterMap.mp hv
  obtain ⟨cd, hs, hm, hveq⟩ := itemVariant_some_inv _ _ _ hsome
  obtain ⟨p, items, hpm, hpx, hpi⟩ := visitedItems_mem_inv _ _ hin
  exact ⟨p, items, it, cd, hpm, hpx, hpi, hs, hm, hveq⟩

/-- C2 witness: the variant `Dog(Dog)` of the example scan traces back
to a marked supported item in a visited `rs` file. -/
theorem c2_witness :
    ∃ p items it cd,
      WEntry.fileEntry p (.parsed items) ∈
          exampleWalk (resolveDir (parentDir "/r/main.rs") exampleInv.attrs) ∧
        fileExtension p = some "rs" ∧ it ∈ items ∧
        supportedData it = some cd ∧
        valid_variant "Animal" cd.attrs = true ∧
        "Dog(Dog)" = variantText cd :=
  c2_discovery_soundness exampleWalk exampleInv
    ⟨[], "Animal", "", "enum Animal \x7b\x7d"⟩ [] "/r/main.rs"
    (resolveDir (parentDir "/r/main.rs") exampleInv.attrs) ["Dog(Dog)"]
    "Dog(Dog)" rfl rfl rfl rfl (List.mem_singleton.mpr rfl)

/-- C3: for a successful invocation on an empty enumeration named `G`,
the emitted declaration is literally
`#[enum_dispatch]\nenum G<'a> { v1,\nv2,\n... }` — the fixed dispatch
attribute, the group name, the unconditional lifetime parameter `'a`,
and one variant per qualifying item in directory-walk discovery
order. -/
theorem c3_synthesized_form (walk : String → List WEntry)
    (inv : Invocation) (d : ItemData) (file dir : String) (vs : List String)
    (hitem : inv.item = .enum_ d [])
    (hfile : inv.localFile = some file)
    (hdir : dir = resolveDir (parentDir file) inv.attrs)
    (hok : collectVariants d.ident (walk dir) = .ok vs) :
    enum_builder walk inv =
      .ok ("#[enum_dispatch]\nenum " ++ d.ident ++ "<\x27a> \x7b "
        ++ String.intercalate ",\n" vs ++ " \x7d") ∧
    vs = (visitedItems (walk dir)).filterMap (itemVariant d.ident) := by
  refine ⟨?_, collectVariants_ok _ _ _ hok⟩
  simp [enum_builder, hfile, hitem, ← hdir, hok, renderEnum]

/-- C3 witness: the example invocation emits the fixed-form string with
the single discovered variant. -/
theorem c3_witness :
    enum_builder exampleWalk exampleInv =
      .ok ("#[enum_dispatch]\nenum " ++ "Animal" ++ "<\x27a> \x7b "
        ++ String.intercalate ",\n" ["Dog(Dog)"] ++ " \x7d") ∧
    ["Dog(Dog)"] =
      (visitedItems (exampleWalk
          (resolveDir (parentDir "/r/main.rs") exampleInv.attrs))).filterMap
        (itemVariant "Animal") :=
  c3_synthesized_form exampleWalk exampleInv
    ⟨[], "Animal", "", "enum Animal \x7b\x7d"⟩ "/r/main.rs"
    (resolveDir (parentDir "/r/main.rs") exampleInv.attrs) ["Dog(Dog)"]
    rfl rfl rfl rfl

/-- C7: if the walk visits a candidate `rs` file that is unreadable or
unparsable, the whole invocation aborts with a fatal error whose
message names a failing file's path (`unable to read file <path>` or
`unable to parse file <path>`); no skip-and-continue result is
produced. -/
theorem c7_fatal_bad_file (walk : String → List WEntry)
    (inv : Invocation) (d : ItemData) (evariants : List String)
    (file dir p : String) (c : FileContent)
    (hitem : inv.item = .enum_ d evariants)
    (hfile : inv.localFile = some file)
    (hdir : dir = resolveDir (parentDir file) inv.attrs)
    (hmem : WEntry.fileEntry p c ∈ walk dir)
    (hext : fileExtension p = some "rs")
    (hbad : c = .unreadable ∨ c = .unparsable) :
    ∃ q, fileExtension q = some "rs" ∧
      ((enum_builder walk inv = .error ("unable to read file " ++ q) ∧
          WEntry.fileEntry q .unreadable ∈ walk dir) ∨
        (enum_builder walk inv = .error ("unable to parse file " ++ q) ∧
          WEntry.fileEntry q .unparsable ∈ walk dir)) := by
  obtain ⟨q, hq, hcase⟩ :=
    collectVariants_error_of_bad d.ident (walk dir) p c hmem hext hbad
  refine ⟨q, hq, ?_⟩
  rcases hcase with ⟨heq, hm⟩ | ⟨heq, hm⟩
  · exact Or.inl ⟨by simp [enum_builder, hfile, hitem, ← hdir, heq], hm⟩
  · exact Or.inr ⟨by simp [enum_builder, hfile, hitem, ← hdir, heq], hm⟩

/-- A one-file walk whose only candidate file cannot be read, used for
concrete instantiations. -/
def exampleBadWalk : String → List WEntry := fun _ =>
  [WEntry.fileEntry "/r/bad.rs" .unreadable]

/-- C7 witness: an unreadable candidate file aborts the example
invocation with the message naming its path. -/
theorem c7_witness :
    ∃ q, fileExtension q = some "rs" ∧
      ((enum_builder exampleBadWalk exampleInv =
            .error ("unable to read file " ++ q) ∧
          WEntry.fileEntry q .unreadable ∈
            exampleBadWalk
              (resolveDir (parentDir "/r/main.rs") exampleInv.attrs)) ∨
        (enum_builder exampleBadWalk exampleInv =
            .error ("unable to parse file " ++ q) ∧
          WEntry.fileEntry q .unparsable ∈
            exampleBadWalk
              (resolveDir (parentDir "/r/main.rs") exampleInv.attrs))) :=
  c7_fatal_bad_file exampleBadWalk exampleInv
    ⟨[], "Animal", "", "enum Animal \x7b\x7d"⟩ [] "/r/main.rs"
    (resolveDir (parentDir "/r/main.rs") exampleInv.attrs) "/r/bad.rs"
    .unreadable rfl rfl rfl (List.mem_singleton.mpr rfl) rfl (Or.inl rfl)

/-- C8: a walk of the scan root that yields no candidate file — in
particular a nonexistent root, whose walk yields a single error entry —
is not an error: the invocation completes and emits the synthesized
enumeration with zero variants. -/
theorem c8_zero_candidates (walk : String → List WEntry)
    (inv : Invocation) (d : ItemData) (evariants : List String)
    (file dir : String)
    (hitem : inv.item = .enum_ d evariants)
    (hfile : inv.localFile = some file)
    (hdir : dir = resolveDir (parentDir file) inv.attrs)
    (hempty : ∀ e ∈ walk dir, isCandidateFile e = false) :
    enum_builder walk inv = .ok (renderEnum d.ident []) := by
  have h := collectVariants_ok_nil d.ident (walk dir) hempty
  simp [enum_builder, hfile, hitem, ← hdir, h]

/-- C8 witness: a nonexistent root (its walk yields one error entry)
produces the zero-variant enumeration. -/
theorem c8_witness :
    enum_builder (fun _ => [WEntry.err]) exampleInv =
      .ok (renderEnum "Animal" []) :=
  c8_zero_candidates (fun _ => [WEntry.err]) exampleInv
    ⟨[], "Animal", "", "enum Animal \x7b\x7d"⟩ [] "/r/main.rs"
    (resolveDir (parentDir "/r/main.rs") exampleInv.attrs) rfl rfl rfl
    (by intro e he; rw [List.mem_singleton.mp he]; rfl)

/-- C9: duplicate candidate names are neither detected nor
deduplicated: when two qualifying candidates (in two visited candidate
files) render the same variant text, a successful scan's variant list
contains that text at least twice, in discovery order. -/
theorem c9_duplicates_kept (n : String) (es1 es2 es3 : List WEntry)
    (p1 p2 : String) (items1 items2 : List Item) (it1 it2 : Item)
    (cd1 cd2 : ItemData) (vs : List String)
    (hext1 : fileExtension p1 = some "rs")
    (hext2 : fileExtension p2 = some "rs")
    (hit1 : it1 ∈ items1) (hit2 : it2 ∈ items2)
    (hs1 : supportedData it1 = some cd1)
    (hs2 : supportedData it2 = some cd2)
    (hm1 : valid_variant n cd1.attrs = true)
    (hm2 : valid_variant n cd2.attrs = true)
    (hname : variantText cd2 = variantText cd1)
    (hok : collectVariants n
        (es1 ++ WEntry.fileEntry p1 (.parsed items1) ::
          (es2 ++ WEntry.fileEntry p2 (.parsed items2) :: es3)) = .ok vs) :
    2 ≤ vs.count (variantText cd1) := by
  rw [collectVariants_ok _ _ _ hok]
  have h1 : variantText cd1 ∈ items1.filterMap (itemVariant n) :=
    List.mem_filterMap.mpr ⟨it1, hit1,
      by rw [itemVariant_of_supported _ _ _ hs1, if_pos hm1]⟩
  have h2 : variantText cd1 ∈ items2.filterMap (itemVariant n) :=
    List.mem_filterMap.mpr ⟨it2, hit2,
      by rw [itemVariant_of_supported _ _ _ hs2, if_pos hm2, hname]⟩
  have hv : visitedItems
      (es1 ++ WEntry.fileEntry p1 (.parsed items1) ::
        (es2 ++ WEntry.fileEntry p2 (.parsed items2) :: es3)) =
      visitedItems es1 ++ (items1 ++ (visitedItems es2 ++
        (items2 ++ visitedItems es3))) := by
    rw [visitedItems_append]
    rw [show visitedItems (WEntry.fileEntry p1 (.parsed items1) ::
        (es2 ++ WEntry.fileEntry p2 (.parsed items2) :: es3)) =
      items1 ++ visitedItems
        (es2 ++ WEntry.fileEntry p2 (.parsed items2) :: es3) from by
      rw [visitedItems, if_neg (by simp [hext1])]]
    rw [visitedItems_append]
    rw [show visitedItems (WEntry.fileEntry p2 (.parsed items2) :: es3) =
      items2 ++ visitedItems es3 from by
      rw [visitedItems, if_neg (by simp [hext2])]]
  rw [hv]
  simp only [List.filterMap_append, List.count_append]
  have hc1 : 0 < (items1.filterMap (itemVariant n)).count (variantText cd1) :=
    List.count_pos_iff.mpr h1
  have hc2 : 0 < (items2.filterMap (itemVariant n)).count (variantText cd1) :=
    List.count_pos_iff.mpr h2
  omega

/-- C9 witness: two files each declaring a marked `Dog` struct yield the
variant text `Dog(Dog)` twice. -/
theorem c9_witness : 2 ≤
    (["Dog(Dog)", "Dog(Dog)"].count
      (variantText ⟨[Meta.list "enum_builder_variant" "Animal"], "Dog", "",
        "struct Dog \x7b\x7d"⟩)) :=
  c9_duplicates_kept "Animal" [] [] [] "/r/a.rs" "/r/b.rs"
    [.struct_ ⟨[Meta.list "enum_builder_variant" "Animal"], "Dog", "",
      "struct Dog \x7b\x7d"⟩]
    [.struct_ ⟨[Meta.list "enum_builder_variant" "Animal"], "Dog", "",
      "struct Dog \x7b\x7d"⟩]
    _ _ _ _ _ rfl rfl (List.mem_singleton.mpr rfl)
    (List.mem_singleton.mpr rfl) rfl rfl rfl rfl rfl rfl

/-- C10: for any target accepted as an enumeration, the output is
exactly the fixed auxiliary attribute plus the new header and variant
list; it coincides with the output for a bare target stripped of its
attributes, generics, declared variants and original rendering, so none
of those survive into the emitted declaration. -/
theorem c10_target_erased (walk : String → List WEntry)
    (inv : Invocation) (d : ItemData) (evariants : List String)
    (file : String) (vs : List String)
    (hitem : inv.item = .enum_ d evariants)
    (hfile : inv.localFile = some file)
    (hok : collectVariants d.ident
        (walk (resolveDir (parentDir file) inv.attrs)) = .ok vs) :
    enum_builder walk inv = .ok (renderEnum d.ident vs) ∧
    enum_builder walk inv =
      enum_builder walk
        ⟨inv.localFile, inv.attrs, .enum_ ⟨[], d.ident, "", ""⟩ []⟩ := by
  constructor
  · simp [enum_builder, hfile, hitem, hok]
  · simp [enum_builder, hfile, hitem, hok]

/-- An invocation on a decorated, generic, non-empty `Animal`
enumeration, used for concrete instantiations. -/
def exampleDecoratedInv : Invocation :=
  ⟨some "/r/main.rs", [],
    .enum_ ⟨[Meta.path "derive"], "Animal", "<T>",
      "pub enum Animal<T> \x7b Old(T) \x7d"⟩ ["Old(T)"]⟩

/-- C10 witness: a decorated, generic, non-empty target emits the same
fixed-form output as the bare target. -/
theorem c10_witness :
    enum_builder exampleWalk exampleDecoratedInv =
      .ok (renderEnum "Animal" ["Dog(Dog)"]) ∧
    enum_builder exampleWalk exampleDecoratedInv =
      enum_builder exampleWalk
        ⟨exampleDecoratedInv.localFile, exampleDecoratedInv.attrs,
          .enum_ ⟨[], "Animal", "", ""⟩ []⟩ :=
  c10_target_erased exampleWalk exampleDecoratedInv
    ⟨[Meta.path "derive"], "Animal", "<T>",
      "pub enum Animal<T> \x7b Old(T) \x7d"⟩ ["Old(T)"] "/r/main.rs"
    ["Dog(Dog)"] rfl rfl rfl

end EnumBuilder
